import Mathlib

/-!
Shallow embedding of `src/utils/stochastic_processes.py` and `src/utils/data.py`.

Conventions of the embedding:
* IEEE floating-point values are modelled as exact rationals (`ℚ`).
* A seeded numpy `Generator` is modelled by the stream of variates it
  produces: a function `ℕ → ℚ` giving the successive draws of the call
  (`np.random.default_rng seed` yields the stream attached to `seed`; each
  `generate` call constructs its own stream from its seed argument alone).
* `np.digitize` / `searchsorted side=right` on sorted breakpoints returns the
  number of breakpoints that are `≤` the probe, which is how it is embedded.
* Fallible Python code (assertion failures, `ZeroDivisionError`, `IndexError`)
  is embedded with `Option`: `none` means the call raises.
-/

/-- Embedding of `np.digitize(u, bins)` (equivalently `searchsorted` with
side `right`) for sorted breakpoints: the number of breakpoints `≤ u`. -/
def digitize (bins : List ℚ) (u : ℚ) : ℕ :=
  bins.countP (fun b => decide (b ≤ u))

/-- Embedding of a Bernoulli variate `rng.binomial(n=1, p=pr)` driven by one
uniform draw `u` of the generator stream. -/
def bernoulliDraw (pr : ℚ) (u : ℚ) : ℕ :=
  if u < pr then 1 else 0

/-- The `TwoStateMarkovChain` configuration: transition probabilities `p`
(state 0 to 1) and `q` (state 1 to 0). -/
structure Markov where
  p : ℚ
  q : ℚ
deriving DecidableEq

/-- Second component of the stationary distribution
`pi = (q/(p+q), p/(p+q))` of `TwoStateMarkovChain.__init__`. -/
def Markov.pi1 (m : Markov) : ℚ :=
  m.p / (m.p + m.q)

/-- Column-1 entry of the transition matrix row for the given state:
`P[state, 1]` with `P = [[1-p, p], [q, 1-q]]`. -/
def Markov.prowOne (m : Markov) (state : ℕ) : ℚ :=
  if state = 0 then m.p else 1 - m.q

/-- Embedding of `TwoStateMarkovChain.__init__`: range assertions on `p` and
`q`, then the stationary distribution `q/(p+q)` which raises
`ZeroDivisionError` when `p + q = 0`. -/
def markovInit (p q : ℚ) : Option Markov :=
  if 0 ≤ p ∧ p ≤ 1 then
    if 0 ≤ q ∧ q ≤ 1 then
      if p + q = 0 then none else some ⟨p, q⟩
    else none
  else none

/-- The state sequence of `TwoStateMarkovChain.generate`: `states[0]` is a
Bernoulli draw with probability `pi[1]`, and `states[i]` a Bernoulli draw with
probability `P[states[i-1], 1]`, the `i`-th draw consuming stream position
`i`. -/
def markovSeq (m : Markov) (u : ℕ → ℚ) : ℕ → ℕ
  | 0 => bernoulliDraw (Markov.pi1 m) (u 0)
  | i + 1 => bernoulliDraw (Markov.prowOne m (markovSeq m u i)) (u (i + 1))

/-- Embedding of `TwoStateMarkovChain.generate(N, seed)` over the stream `u`
of the generator constructed from `seed`. -/
def Markov.generate (m : Markov) (N : ℕ) (u : ℕ → ℚ) : List ℕ :=
  (List.range N).map (markovSeq m u)

/-- The state sequence of `AR1.generate`: the loop
`states[i] = phi * states[i-1] + states[i]` over the initial standard-normal
draws `e`. -/
def ar1Seq (phi : ℚ) (e : ℕ → ℚ) : ℕ → ℚ
  | 0 => e 0
  | i + 1 => phi * ar1Seq phi e i + e (i + 1)

/-- Embedding of `AR1.generate(N, seed)`: `e` is the stream of standard-normal
draws of the generator constructed from `seed`. -/
def AR1generate (phi : ℚ) (N : ℕ) (e : ℕ → ℚ) : List ℚ :=
  (List.range N).map (ar1Seq phi e)

/-- Embedding of `np.eye(n, k)`: ones on diagonal offset `k`. -/
def eyeQ (n : ℕ) (k : ℤ) : List (List ℚ) :=
  (List.range n).map (fun i : ℕ =>
    (List.range n).map (fun j : ℕ => if (j : ℤ) = (i : ℤ) + k then (1 : ℚ) else 0))

/-- Scalar multiplication of a matrix held as a list of rows. -/
def matScale (c : ℚ) (M : List (List ℚ)) : List (List ℚ) :=
  M.map (fun r => r.map (fun x => c * x))

/-- Elementwise sum of two matrices held as lists of rows. -/
def matAdd (A B : List (List ℚ)) : List (List ℚ) :=
  List.zipWith (fun r t => List.zipWith (fun x y => x + y) r t) A B

/-- Single-cell update `M[i, j] = v` of a matrix held as a list of rows. -/
def setCell (M : List (List ℚ)) (i j : ℕ) (v : ℚ) : List (List ℚ) :=
  M.set i ((M.getD i []).set j v)

/-- Cell read of a matrix held as a list of rows. -/
def matEntry (M : List (List ℚ)) (i j : ℕ) : ℚ :=
  (M.getD i []).getD j 0

/-- The matrix expression of `CycleRandomWalk.__init__`:
`eye(n,-1)*b + eye(n,0)*s + eye(n,1)*f`. -/
def cycleBase (b s f : ℚ) (n : ℕ) : List (List ℚ) :=
  matAdd (matAdd (matScale b (eyeQ n (-1))) (matScale s (eyeQ n 0))) (matScale f (eyeQ n 1))

/-- The transition matrix of `CycleRandomWalk.__init__` after the wrap-around
updates `P[0, -1] = b` and `P[-1, 0] = f` (numpy index `-1` is `n - 1`). -/
def cycleP (b s f : ℚ) (n : ℕ) : List (List ℚ) :=
  setCell (setCell (cycleBase b s f n) 0 (n - 1) b) (n - 1) 0 f

/-- Row sums `P.sum(axis=1)` of a matrix held as a list of rows. -/
def rowSums (M : List (List ℚ)) : List ℚ :=
  M.map List.sum

/-- Embedding of `np.allclose(xs, 1)` with numpy defaults
`rtol = 1e-5`, `atol = 1e-8`. -/
def allcloseOne (xs : List ℚ) : Bool :=
  xs.all (fun x => decide (|x - 1| ≤ 1 / 100000000 + 1 / 100000))

/-- Embedding of `CycleRandomWalk.__init__`: the four assertions, the matrix
construction (raising on the corner writes when `vertices = 0`), and the
row-stochasticity assertion. -/
def cycleInit (b s f : ℚ) (vertices : ℕ) : Option (List (List ℚ)) :=
  if 0 ≤ b ∧ b ≤ 1 then
    if 0 ≤ s ∧ s ≤ 1 then
      if 0 ≤ f ∧ f ≤ 1 then
        if |b + s + f - 1| < 1 / 1000000000000 then
          if vertices = 0 then none
          else
            if allcloseOne (rowSums (cycleP b s f vertices)) then
              some (cycleP b s f vertices)
            else none
        else none
      else none
    else none
  else none

/-- Running partial sums of a list of integers, as `ndarray.cumsum`. -/
def cumsumInt : List ℤ → List ℤ
  | [] => []
  | x :: xs => x :: (cumsumInt xs).map (fun y => x + y)

/-- Embedding of `rng.choice(np.arange(vertices), p=pi)` with uniform `pi`:
inverse-CDF lookup of a uniform draw against the normalized cumulative
weights `(i+1)/vertices`. -/
def cycleInitialState (vertices : ℕ) (u : ℚ) : ℕ :=
  digitize ((List.range vertices).map (fun i : ℕ => ((i : ℚ) + 1) / (vertices : ℚ))) u

/-- Embedding of one draw of `rng.choice([-1, 0, 1], p=[b, s, f])`:
inverse-CDF lookup against the normalized cumulative weights, then the value
table `[-1, 0, 1]`. -/
def choiceMove (b s f : ℚ) (u : ℚ) : ℤ :=
  (digitize [b / (b + s + f), (b + s) / (b + s + f), (b + s + f) / (b + s + f)] u : ℤ) - 1

/-- Embedding of `CycleRandomWalk.generate(N, seed)`: initial state from the
stationary distribution (stream position 0), `N - 1` moves (stream positions
`1, ..., N-1`), cumulative sum reduced modulo `vertices`. -/
def cycleGenerate (b s f : ℚ) (vertices N : ℕ) (u : ℕ → ℚ) : List ℤ :=
  (cumsumInt ((cycleInitialState vertices (u 0) : ℤ) ::
      (List.range (N - 1)).map (fun k => choiceMove b s f (u (k + 1))))).map
    (fun x => x % (vertices : ℤ))

/-- Exact factorial as a rational, for integer decay coefficients. -/
def factQ (n : ℕ) : ℚ :=
  (Nat.factorial n : ℚ)

/-- The Pochhammer symbol `poch(x, n) = x (x+1) ... (x+n-1)`. -/
def pochQ (x : ℚ) (n : ℕ) : ℚ :=
  ((List.range n).map (fun i : ℕ => x + (i : ℚ))).prod

/-- Embedding of `Renewal.cdf_x_zero`: distribution function of the first
inter-arrival gap, `1 - n! / poch(i+1, n) * (i+1) / n`. -/
def cdf_x_zero (n : ℕ) (i : ℚ) : ℚ :=
  1 - factQ n / pochQ (i + 1) n * (i + 1) / (n : ℚ)

/-- Embedding of `Renewal.cdf_f`: distribution function of every subsequent
inter-arrival gap, `1 - n! / poch(i+1, n)`. -/
def cdf_f (n : ℕ) (i : ℚ) : ℚ :=
  1 - factQ n / pochQ (i + 1) n

/-- The truncation-bound lookup of `Renewal.__init__` keyed on the decay
coefficient, returned as `(lim_f, lim_x_zero)`; the `match` falls through to
`(27, 38)` for every coefficient other than `2, 3, 4, 5`. -/
def renewalLims (n : ℚ) : ℕ × ℕ :=
  if n = 2 then (1413, 999998)
  else if n = 3 then (180, 1412)
  else if n = 4 then (68, 179)
  else if n = 5 then (39, 67)
  else (27, 38)

/-- Embedding of `Renewal.__init__`: the assertion `n > 1` followed by the
truncation-bound selection. -/
def renewalInit (n : ℚ) : Option (ℕ × ℕ) :=
  if 1 < n then some (renewalLims n) else none

/-- The digitized inter-arrival gaps of `Renewal.generate` (integer decay
coefficient `n`): the first gap looks the draw up against the `cdf_x_zero`
table over `[0, lim_x_zero)`, the remaining `N - 1` gaps against the `cdf_f`
table over `[0, lim_f)`. -/
def renewalGaps (n : ℕ) (N : ℕ) (u : ℕ → ℚ) : List ℕ :=
  digitize ((List.range (renewalLims (n : ℚ)).2).map (fun i : ℕ => cdf_x_zero n (i : ℚ))) (u 0) ::
    (List.range (N - 1)).map (fun k : ℕ =>
      digitize ((List.range (renewalLims (n : ℚ)).1).map (fun i : ℕ => cdf_f n (i : ℚ))) (u (k + 1)))

/-- Running partial sums of a list of naturals, as `ndarray.cumsum`. -/
def cumsumNat : List ℕ → List ℕ
  | [] => []
  | x :: xs => x :: (cumsumNat xs).map (fun y => x + y)

/-- The arrival times `x_cumsum` of `Renewal.generate`. -/
def renewalCumsum (n N : ℕ) (u : ℕ → ℚ) : List ℕ :=
  cumsumNat (renewalGaps n N u)

/-- Embedding of `Renewal.generate(N, seed)`: the returned array
`[int(np.isin(k, x_cumsum[:k])) for k in range(N)]` over the uniform draw
stream `u`. -/
def renewalGenerate (n N : ℕ) (u : ℕ → ℚ) : List ℕ :=
  (List.range N).map (fun k => if k ∈ (renewalCumsum n N u).take k then 1 else 0)

/-- Embedding of `pandas.Series.shift(k)` on the `value` column: entry `i`
becomes the value at `i - k` when that index exists, else missing. -/
def pdShift (xs : List ℚ) (k : ℤ) : List (Option ℚ) :=
  (List.range xs.length).map (fun i : ℕ =>
    if 0 ≤ (i : ℤ) - k ∧ (i : ℤ) - k < (xs.length : ℤ) then
      some (xs.getD ((i : ℤ) - k).toNat 0)
    else none)

/-- The dataframe of `get_synthetic` before `dropna`, one row per index of the
sequence, with columns `value`, `value_lag_1 .. value_lag_lags`, `target`. -/
def tableOf (xs : List ℚ) (lags : ℕ) : List (List (Option ℚ)) :=
  (List.range xs.length).map (fun i : ℕ =>
    some (xs.getD i 0) ::
      ((List.range lags).map (fun j : ℕ => (pdShift xs ((j : ℤ) + 1)).getD i none) ++
        [(pdShift xs (-1)).getD i none]))

/-- Embedding of `DataFrame.dropna(axis=0)`: keep rows with no missing
entry. -/
def dropna (t : List (List (Option ℚ))) : List (List (Option ℚ)) :=
  t.filter (fun r => r.all Option.isSome)

/-- The four stochastic processes recognized by `get_synthetic`, with their
constructor parameters (the renewal decay coefficient is taken integral so
that its distribution functions are exact rationals). -/
inductive SP where
  | two_state_markov_chain (p q : ℚ)
  | ar1 (phi : ℚ)
  | cycle_random_walk (b s f : ℚ) (vertices : ℕ)
  | renewal (n : ℕ)
deriving DecidableEq

/-- Whether the simulator construction performed by `get_synthetic`
succeeds. -/
def SP.valid : SP → Bool
  | .two_state_markov_chain p q => (markovInit p q).isSome
  | .ar1 _ => true
  | .cycle_random_walk b s f v => (cycleInit b s f v).isSome
  | .renewal n => decide (2 ≤ n)

/-- The raw sequence `sp.generate(N, seed)` of the chosen simulator, cast to
rationals as `get_synthetic` mixes integer and real sequences in one float
column. -/
def SP.generateQ : SP → ℕ → (ℕ → ℚ) → List ℚ
  | .two_state_markov_chain p q, N, u => (Markov.generate ⟨p, q⟩ N u).map (fun x : ℕ => (x : ℚ))
  | .ar1 phi, N, u => AR1generate phi N u
  | .cycle_random_walk b s f v, N, u => (cycleGenerate b s f v N u).map (fun x : ℤ => (x : ℚ))
  | .renewal n, N, u => (renewalGenerate n N u).map (fun x : ℕ => (x : ℚ))

/-- The `match` of `get_synthetic` deciding which processes receive the small
Gaussian perturbation. -/
def SP.isDiscrete : SP → Bool
  | .ar1 _ => false
  | _ => true

/-- The sequence of `get_synthetic` after the optional noise step
`rng.normal(sequence, scale=1e-6)`, which adds `1e-6` times a fresh
standard-normal draw to each entry of a discrete-valued sequence. -/
def synthSeq (sp : SP) (N lags : ℕ) (u noise : ℕ → ℚ) : List ℚ :=
  let seq0 := sp.generateQ (N + lags + 1) u
  if sp.isDiscrete then seq0.mapIdx (fun i x => x + 1 / 1000000 * noise i) else seq0

/-- Embedding of `get_synthetic`: simulator construction, generation of
`N + lags + 1` raw points, optional noise, lag and target columns, `dropna`,
and the final length assertion. -/
def get_synthetic (sp : SP) (N lags : ℕ) (u noise : ℕ → ℚ) : Option (List (List (Option ℚ))) :=
  if SP.valid sp then
    if (dropna (tableOf (synthSeq sp N lags u noise) lags)).length = N then
      some (dropna (tableOf (synthSeq sp N lags u noise) lags))
    else none
  else none

/-- Embedding of `SequentialSplit.split` over an input of length `n`
(only the length of `X` matters): for each starting offset, the list of
index-segment slices `indices[t + sum(sizes[:j]) : t + sum(sizes[:j+1])]`. -/
def sequentialSplit (sizes : List ℕ) (n : ℕ) : List (List (List ℕ)) :=
  let indices := List.range n
  let nSplits := ((n : ℤ) - (sizes.sum : ℤ) + 1).toNat
  (List.range nSplits).map (fun t =>
    (List.range sizes.length).map (fun j =>
      (indices.drop (t + (sizes.take j).sum)).take
        ((sizes.take (j + 1)).sum - (sizes.take j).sum)))

/-- Embedding of `get_data`. The CSV read and the pandas operations are
library effects abstracted as parameters: `readDF` is the parsed dataframe,
`setTarget df g` is `df` with `df[target].shift(-g)` assigned to a `target`
column, `dropRows` is `DataFrame.dropna(axis=0)`. The returned flag records
whether the advisory warning was emitted. -/
def get_data {α : Type} (readDF : α) (setTarget : α → ℤ → α) (dropRows : α → α)
    (target : String) (target_gap : ℤ) : Except String (Bool × α) :=
  if target ≠ "" ∧ target_gap < 1 then
    Except.error "A gap less than 1 would constitute data leakage and is not allowed."
  else
    Except.ok (decide (target = "" ∧ target_gap ≠ 0),
      dropRows (if target ≠ "" then setTarget readDF target_gap else readDF))

section Helpers

theorem getD_map_range {α : Type} (f : ℕ → α) {n i : ℕ} (d : α) (h : i < n) :
    ((List.range n).map f).getD i d = f i := by
  have hl : i < ((List.range n).map f).length := by simpa using h
  rw [List.getD_eq_getElem _ _ hl, List.getElem_map, List.getElem_range]

theorem getD_map_of_lt {α β : Type} (f : α → β) (l : List α) {j : ℕ} (h : j < l.length)
    (d : β) (d0 : α) : (l.map f).getD j d = f (l.getD j d0) := by
  rw [List.getD_eq_getElem _ _ (by simpa using h), List.getD_eq_getElem _ _ h, List.getElem_map]

theorem bernoulliDraw_mem (pr u : ℚ) : bernoulliDraw pr u = 0 ∨ bernoulliDraw pr u = 1 := by
  unfold bernoulliDraw
  split
  · right; rfl
  · left; rfl

theorem markovSeq_mem (m : Markov) (u : ℕ → ℚ) (k : ℕ) :
    markovSeq m u k = 0 ∨ markovSeq m u k = 1 := by
  cases k with
  | zero => exact bernoulliDraw_mem _ _
  | succ j => exact bernoulliDraw_mem _ _

end Helpers

/-- C6: for every coefficient `phi`, length `N` and standard-normal draw
stream `e`, `AR1.generate` returns a sequence of length `N` whose entry 0 is
`e 0` and whose entry `i` (for `1 ≤ i < N`) is
`phi * output[i-1] + e i`. -/
theorem ar1_generate_recursion (phi : ℚ) (N : ℕ) (e : ℕ → ℚ) :
    (AR1generate phi N e).length = N ∧
    (1 ≤ N → (AR1generate phi N e).getD 0 0 = e 0) ∧
    (∀ i, 1 ≤ i → i < N →
      (AR1generate phi N e).getD i 0 =
        phi * (AR1generate phi N e).getD (i - 1) 0 + e i) := by
  refine ⟨by simp [AR1generate], ?_, ?_⟩
  · intro hN
    rw [AR1generate, getD_map_range _ _ hN]
    rfl
  · intro i h1 hI
    obtain ⟨j, rfl⟩ : ∃ j, i = j + 1 := ⟨i - 1, by omega⟩
    simp only [Nat.add_sub_cancel]
    rw [AR1generate, getD_map_range _ _ hI, getD_map_range _ _ (by omega : j < N)]
    rfl

/-- Witness for C6 at `phi = 2`, `N = 3`, `e k = k`. -/
theorem ar1_generate_recursion_witness :
    (AR1generate 2 3 (fun k => (k : ℚ))).length = 3 ∧
    (1 ≤ 3 → (AR1generate 2 3 (fun k => (k : ℚ))).getD 0 0 = ((0 : ℕ) : ℚ)) ∧
    (∀ i, 1 ≤ i → i < 3 →
      (AR1generate 2 3 (fun k => (k : ℚ))).getD i 0 =
        2 * (AR1generate 2 3 (fun k => (k : ℚ))).getD (i - 1) 0 + (i : ℚ)) :=
  ar1_generate_recursion 2 3 (fun k => (k : ℚ))

/-- C10: `Renewal.__init__` accepts every rational decay coefficient
`n > 1`, integral or not, and selects the fallback truncation bounds
`lim_f = 27`, `lim_x_zero = 38` whenever `n` is not exactly `2`, `3`, `4` or
`5`. -/
theorem renewal_init_accepts_fallback (x : ℚ) (h : 1 < x) :
    renewalInit x = some (renewalLims x) ∧
    (x ≠ 2 → x ≠ 3 → x ≠ 4 → x ≠ 5 → renewalLims x = (27, 38)) := by
  constructor
  · rw [renewalInit, if_pos h]
  · intro h2 h3 h4 h5
    rw [renewalLims, if_neg h2, if_neg h3, if_neg h4, if_neg h5]

/-- Witness for C10 at the non-integer coefficient `n = 3/2`. -/
theorem renewal_init_accepts_fallback_witness :
    (1 : ℚ) < 3 / 2 ∧ renewalInit (3 / 2) = some (27, 38) := by
  have h := renewal_init_accepts_fallback (3 / 2) (by norm_num)
  refine ⟨by norm_num, ?_⟩
  rw [h.1, h.2 (by norm_num) (by norm_num) (by norm_num) (by norm_num)]

/-- C9: `get_data` fails with the data-leakage error exactly when the target
name is nonempty and the gap is below 1; with an empty target name it always
continues, emits the advisory warning exactly when the gap is nonzero, and
its result ignores the gap entirely. -/
theorem get_data_leakage_guard {α : Type} (readDF : α) (setTarget : α → ℤ → α)
    (dropRows : α → α) (target : String) (gap : ℤ) :
    ((∃ msg, get_data readDF setTarget dropRows target gap = Except.error msg) ↔
      (target ≠ "" ∧ gap < 1)) ∧
    (target = "" →
      get_data readDF setTarget dropRows target gap =
        Except.ok (decide (gap ≠ 0), dropRows readDF)) := by
  constructor
  · by_cases h : target ≠ "" ∧ gap < 1
    · simp [get_data, h]
    · simp [get_data, h]
  · intro ht
    subst ht
    simp [get_data]

/-- Witness for C9: empty target with gap 5 warns, continues, and the result
does not depend on the gap even under a gap-sensitive target assignment. -/
theorem get_data_leakage_guard_witness :
    get_data (0 : ℤ) (fun a g => a + g) id "" 5 = Except.ok (true, 0) := by
  have h := (get_data_leakage_guard (0 : ℤ) (fun a g => a + g) id "" 5).2 rfl
  simpa using h

/-- C7: every simulator's `generate` builds its pseudo-random source from its
own seed argument alone (the embedding of `np.random.default_rng(seed)` is the
stream attached to `seed`), so its output is invariant under any change of the
ambient stream family that preserves the stream of that seed; in particular
two calls with the same parameters and seed return identical output. -/
theorem generate_fresh_rng_reproducible (S T : ℕ → ℕ → ℚ) (seed : ℕ)
    (h : ∀ k, S seed k = T seed k) (m : Markov) (phi b s f : ℚ) (v n N : ℕ) :
    Markov.generate m N (S seed) = Markov.generate m N (T seed) ∧
    AR1generate phi N (S seed) = AR1generate phi N (T seed) ∧
    cycleGenerate b s f v N (S seed) = cycleGenerate b s f v N (T seed) ∧
    renewalGenerate n N (S seed) = renewalGenerate n N (T seed) := by
  have hs : S seed = T seed := funext h
  rw [hs]
  exact ⟨rfl, rfl, rfl, rfl⟩

/-- Witness for C7: two stream families that agree on the stream of seed 7
produce identical outputs for all four simulators. -/
theorem generate_fresh_rng_reproducible_witness :
    Markov.generate ⟨1/2, 1/2⟩ 2 ((fun (_ k : ℕ) => (1 : ℚ) / ((k : ℚ) + 2)) 7) =
      Markov.generate ⟨1/2, 1/2⟩ 2 ((fun (_ k : ℕ) => (1 : ℚ) / ((k : ℚ) + 2)) 7) ∧
    AR1generate 1 2 ((fun (_ k : ℕ) => (1 : ℚ) / ((k : ℚ) + 2)) 7) =
      AR1generate 1 2 ((fun (_ k : ℕ) => (1 : ℚ) / ((k : ℚ) + 2)) 7) ∧
    cycleGenerate 0 1 0 3 2 ((fun (_ k : ℕ) => (1 : ℚ) / ((k : ℚ) + 2)) 7) =
      cycleGenerate 0 1 0 3 2 ((fun (_ k : ℕ) => (1 : ℚ) / ((k : ℚ) + 2)) 7) ∧
    renewalGenerate 2 2 ((fun (_ k : ℕ) => (1 : ℚ) / ((k : ℚ) + 2)) 7) =
      renewalGenerate 2 2 ((fun (_ k : ℕ) => (1 : ℚ) / ((k : ℚ) + 2)) 7) :=
  generate_fresh_rng_reproducible (fun (_ k : ℕ) => (1 : ℚ) / ((k : ℚ) + 2))
    (fun (_ k : ℕ) => (1 : ℚ) / ((k : ℚ) + 2)) 7 (fun _ => rfl) ⟨1/2, 1/2⟩ 1 0 1 0 3 2 2

/-- Counterexample to C3 as stated: at `p = q = 0`, both probabilities lie in
`[0, 1]` yet construction fails (`q / (p + q)` raises `ZeroDivisionError`). -/
theorem markov_init_degenerate : markovInit 0 0 = none := by
  norm_num [markovInit]

/-- C3 (amended): for `p, q` in `[0, 1]` with `p + q ≠ 0`, construction
succeeds and `generate` returns, for every length and stream, a sequence of
that length with every value 0 or 1. -/
theorem markov_generate_binary (p q : ℚ) (hp0 : 0 ≤ p) (hp1 : p ≤ 1)
    (hq0 : 0 ≤ q) (hq1 : q ≤ 1) (hpq : p + q ≠ 0) :
    markovInit p q = some ⟨p, q⟩ ∧
    ∀ N : ℕ, ∀ u : ℕ → ℚ, (Markov.generate ⟨p, q⟩ N u).length = N ∧
      ∀ k, k < N → ((Markov.generate ⟨p, q⟩ N u).getD k 0 = 0 ∨
        (Markov.generate ⟨p, q⟩ N u).getD k 0 = 1) := by
  constructor
  · rw [markovInit, if_pos ⟨hp0, hp1⟩, if_pos ⟨hq0, hq1⟩, if_neg hpq]
  · intro N u
    refine ⟨by simp [Markov.generate], ?_⟩
    intro k hk
    rw [Markov.generate, getD_map_range _ _ hk]
    exact markovSeq_mem _ _ _

/-- Witness for C3 (amended) at `p = 1/2`, `q = 1/3`, `N = 2`. -/
theorem markov_generate_binary_witness :
    markovInit (1/2) (1/3) = some ⟨1/2, 1/3⟩ ∧
    (Markov.generate ⟨1/2, 1/3⟩ 2 (fun _ => 1/4)).length = 2 := by
  have h := markov_generate_binary (1/2) (1/3) (by norm_num) (by norm_num)
    (by norm_num) (by norm_num) (by norm_num)
  exact ⟨h.1, (h.2 2 (fun _ => 1/4)).1⟩

/-- Counterexample to C2 as stated: with `b = s = 1/2`, `f = 0` (all in
`[0, 1]`, summing exactly to 1) and 2 vertices, the wrap-around corner writes
overwrite the off-diagonal cells, the second row sums to `1/2`, and the
row-stochasticity assertion makes construction fail. -/
theorem cycle_init_two_vertices_fails : cycleInit (1/2) (1/2) 0 2 = none := by
  have hP : rowSums (cycleP (1/2) (1/2) 0 2) = [1, 1/2] := by
    norm_num [rowSums, cycleP, setCell, cycleBase, matAdd, matScale, eyeQ, List.range_succ,
      List.replicate_succ, matEntry]
  have hA : allcloseOne (rowSums (cycleP (1/2) (1/2) 0 2)) = false := by
    rw [hP]
    norm_num [allcloseOne, abs_le]
  rw [cycleInit, if_pos (by norm_num), if_pos (by norm_num), if_pos (by norm_num),
    if_pos (by norm_num), if_neg (by norm_num : ¬(2 = 0)), hA]
  simp

section RenewalHelpers

theorem factQ_pos (n : ℕ) : 0 < factQ n := by
  unfold factQ
  exact_mod_cast Nat.factorial_pos n

theorem pochQ_succ_right (x : ℚ) (m : ℕ) : pochQ x (m + 1) = pochQ x m * (x + m) := by
  unfold pochQ
  rw [List.range_succ, List.map_append, List.prod_append]
  simp

theorem pochQ_succ_left (x : ℚ) (m : ℕ) : pochQ x (m + 1) = x * pochQ (x + 1) m := by
  unfold pochQ
  rw [List.range_succ_eq_map, List.map_cons, List.prod_cons, List.map_map]
  have hc : List.map ((fun i : ℕ => x + (i : ℚ)) ∘ Nat.succ) (List.range m) =
      List.map (fun i : ℕ => (x + 1) + (i : ℚ)) (List.range m) := by
    apply List.map_congr_left
    intro a _
    simp only [Function.comp_apply]
    push_cast
    ring
  rw [hc]
  push_cast
  ring

theorem pochQ_one (n : ℕ) : pochQ 1 n = factQ n := by
  induction n with
  | zero => simp [pochQ, factQ, Nat.factorial]
  | succ m ih =>
      rw [pochQ_succ_right, ih]
      unfold factQ
      rw [Nat.factorial_succ]
      push_cast
      ring

theorem pochQ_pos (m : ℕ) (x : ℚ) (hx : 0 < x) : 0 < pochQ x m := by
  induction m with
  | zero => simp [pochQ]
  | succ k ih =>
      rw [pochQ_succ_right]
      have : (0 : ℚ) < x + k := by positivity
      positivity

theorem pochQ_mono (m : ℕ) (x y : ℚ) (hx : 0 < x) (hxy : x ≤ y) :
    pochQ x m ≤ pochQ y m := by
  induction m with
  | zero => simp [pochQ]
  | succ k ih =>
      rw [pochQ_succ_right, pochQ_succ_right]
      have h1 : (0 : ℚ) < x + k := by positivity
      have h2 : x + (k : ℚ) ≤ y + k := by linarith
      have h3 : 0 < pochQ x k := pochQ_pos k x hx
      nlinarith

theorem pochQ_lower (n : ℕ) (hn : 1 ≤ n) (x : ℚ) (hx : 0 ≤ x) :
    (x + 1) * factQ n ≤ pochQ (x + 1) n := by
  obtain ⟨m, rfl⟩ : ∃ m, n = m + 1 := ⟨n - 1, by omega⟩
  have hfact : factQ (m + 1) = pochQ 2 m := by
    have h1 := pochQ_succ_left 1 m
    rw [pochQ_one] at h1
    rw [h1]
    norm_num
  rw [pochQ_succ_left (x + 1) m, hfact]
  have hmono : pochQ 2 m ≤ pochQ (x + 1 + 1) m :=
    pochQ_mono m 2 (x + 1 + 1) (by norm_num) (by linarith)
  nlinarith [pochQ_pos m 2 (by norm_num)]

theorem cdf_x_zero_pos (n : ℕ) (hn : 2 ≤ n) (x : ℚ) (hx : 0 ≤ x) :
    0 < cdf_x_zero n x := by
  have hy : (0 : ℚ) < x + 1 := by linarith
  have hpoch : 0 < pochQ (x + 1) n := pochQ_pos n (x + 1) hy
  have hnq : (2 : ℚ) ≤ (n : ℚ) := by exact_mod_cast hn
  have hlow : (x + 1) * factQ n ≤ pochQ (x + 1) n := pochQ_lower n (by omega) x hx
  have hkey : factQ n * (x + 1) < pochQ (x + 1) n * n := by
    nlinarith [factQ_pos n]
  unfold cdf_x_zero
  rw [div_mul_eq_mul_div, div_div]
  have : factQ n * (x + 1) / (pochQ (x + 1) n * n) < 1 := by
    rw [div_lt_one (by positivity)]
    exact hkey
  linarith

theorem cdf_f_zero_eq (n : ℕ) : cdf_f n 0 = 0 := by
  unfold cdf_f
  rw [show (0 : ℚ) + 1 = 1 by norm_num, pochQ_one, div_self (ne_of_gt (factQ_pos n))]
  ring

theorem renewalLims_f_pos (x : ℚ) : 1 ≤ (renewalLims x).1 := by
  unfold renewalLims
  split_ifs <;> norm_num

theorem digitize_x_zero_at_zero (n : ℕ) (hn : 2 ≤ n) :
    digitize ((List.range (renewalLims (n : ℚ)).2).map (fun i : ℕ => cdf_x_zero n (i : ℚ))) 0 = 0 := by
  unfold digitize
  rw [List.countP_eq_zero]
  intro a ha
  rw [List.mem_map] at ha
  obtain ⟨j, _, rfl⟩ := ha
  have := cdf_x_zero_pos n hn (j : ℚ) (Nat.cast_nonneg j)
  simpa using not_le.mpr this

theorem renewal_gap_one_le (n : ℕ) (u : ℚ) (hu : 0 ≤ u) :
    1 ≤ digitize ((List.range (renewalLims (n : ℚ)).1).map (fun i : ℕ => cdf_f n (i : ℚ))) u := by
  obtain ⟨m, hm⟩ : ∃ m, (renewalLims (n : ℚ)).1 = m + 1 :=
    ⟨(renewalLims (n : ℚ)).1 - 1, by have := renewalLims_f_pos (n : ℚ); omega⟩
  rw [hm, List.range_succ_eq_map, List.map_cons]
  unfold digitize
  rw [List.countP_cons_of_pos]
  · omega
  · have h0 : cdf_f n ((0 : ℕ) : ℚ) = 0 := by
      rw [show ((0 : ℕ) : ℚ) = 0 from Nat.cast_zero]
      exact cdf_f_zero_eq n
    show decide (cdf_f n ((0 : ℕ) : ℚ) ≤ u) = true
    rw [h0]
    simpa using hu

theorem cumsumNat_length (l : List ℕ) : (cumsumNat l).length = l.length := by
  induction l with
  | nil => rfl
  | cons x xs ih => simp [cumsumNat, ih]

theorem renewalGaps_length (n N : ℕ) (u : ℕ → ℚ) (hN : 1 ≤ N) :
    (renewalGaps n N u).length = N := by
  simp [renewalGaps]
  omega

theorem renewalGaps_getD_succ_ge (n N : ℕ) (u : ℕ → ℚ) (hu : ∀ k, 0 ≤ u k)
    (i : ℕ) (h1 : 1 ≤ i) (hi : i < N) :
    1 ≤ (renewalGaps n N u).getD i 0 := by
  obtain ⟨m, rfl⟩ : ∃ m, i = m + 1 := ⟨i - 1, by omega⟩
  rw [renewalGaps, List.getD_cons_succ, getD_map_range _ _ (by omega : m < N - 1)]
  exact renewal_gap_one_le n (u (m + 1)) (hu (m + 1))

theorem cumsumNat_getD_lower (l : List ℕ)
    (h1 : ∀ i, 1 ≤ i → i < l.length → 1 ≤ l.getD i 0) :
    ∀ j, j < l.length → l.getD 0 0 + j ≤ (cumsumNat l).getD j 0 := by
  induction l with
  | nil => intro j hj; simp at hj
  | cons x xs ih =>
      intro j hj
      cases j with
      | zero => simp [cumsumNat]
      | succ k =>
          have hk : k < xs.length := by simpa using hj
          have hxs : ∀ i, 1 ≤ i → i < xs.length → 1 ≤ xs.getD i 0 := by
            intro i hi1 hilen
            have := h1 (i + 1) (by omega) (by simpa using Nat.succ_lt_succ hilen)
            simpa using this
          have hx0 : 1 ≤ xs.getD 0 0 := by
            have := h1 1 le_rfl (by simpa using Nat.succ_lt_succ (by omega : 0 < xs.length))
            simpa using this
          have hih := ih hxs k hk
          rw [cumsumNat, List.getD_cons_succ,
            getD_map_of_lt _ _ (by rw [cumsumNat_length]; exact hk) _ 0]
          simp only [List.getD_cons_zero]
          omega

end RenewalHelpers

/-- Counterexample to C1 as stated: with decay coefficient 6, a single output
point and all uniform draws equal to 0, the first gap digitizes to 0, so 0 is
an arrival time (an entry of the cumulative sum), yet the output at index 0 is
0 because the code tests membership only among the first `k` entries
(`x_cumsum[:k]`) of the cumulative sum. -/
theorem renewal_generate_drops_zero_arrival :
    (renewalGenerate 6 1 (fun _ => 0)).getD 0 0 ≠
      (if 0 ∈ renewalCumsum 6 1 (fun _ => 0) then 1 else 0) := by
  have hgaps : renewalGaps 6 1 (fun _ => 0) = [0] := by
    rw [renewalGaps]
    rw [digitize_x_zero_at_zero 6 (by norm_num)]
    simp
  have hcs : renewalCumsum 6 1 (fun _ => 0) = [0] := by
    rw [renewalCumsum, hgaps]
    rfl
  have hout : renewalGenerate 6 1 (fun _ => 0) = [0] := by
    rw [renewalGenerate, hcs]
    rfl
  rw [hout, hcs]
  simp

/-- C1 (amended): for an integral decay coefficient `n ≥ 2`, any `N ≥ 1` and
any nonnegative draw stream, `Renewal.generate` returns a sequence of length
`N` whose value at index `k` is 1 exactly when `k` equals one of the first `k`
entries of the cumulative-sum sequence of the digitized gaps; every gap after
the first is at least 1, so whenever the first gap is nonzero this windowed
test coincides with `k` being an arrival time (any entry of the cumulative
sum). -/
theorem renewal_generate_windowed_arrivals (n N : ℕ) (u : ℕ → ℚ)
    (hn : 2 ≤ n) (hN : 1 ≤ N) (hu : ∀ k, 0 ≤ u k) :
    (renewalGenerate n N u).length = N ∧
    (∀ k, k < N →
      ((renewalGenerate n N u).getD k 0 = 1 ↔
        ∃ j, j < k ∧ (renewalCumsum n N u).getD j 0 = k)) ∧
    (∀ i, 1 ≤ i → i < N → 1 ≤ (renewalGaps n N u).getD i 0) ∧
    (1 ≤ (renewalGaps n N u).getD 0 0 →
      ∀ k, k < N →
        ((renewalGenerate n N u).getD k 0 = 1 ↔ k ∈ renewalCumsum n N u)) := by
  have hlen : (renewalCumsum n N u).length = N := by
    rw [renewalCumsum, cumsumNat_length, renewalGaps_length n N u hN]
  have hout : ∀ k, k < N → (renewalGenerate n N u).getD k 0 =
      if k ∈ (renewalCumsum n N u).take k then 1 else 0 := by
    intro k hk
    rw [renewalGenerate, getD_map_range _ _ hk]
  have hmem : ∀ k, k < N → (k ∈ (renewalCumsum n N u).take k ↔
      ∃ j, j < k ∧ (renewalCumsum n N u).getD j 0 = k) := by
    intro k hk
    rw [List.mem_take_iff_getElem]
    constructor
    · rintro ⟨j, hj, hjk⟩
      have hjlen : j < (renewalCumsum n N u).length := by omega
      exact ⟨j, by omega, by rw [List.getD_eq_getElem _ _ hjlen]; exact hjk⟩
    · rintro ⟨j, hjk, hval⟩
      have hjlen : j < (renewalCumsum n N u).length := by omega
      rw [List.getD_eq_getElem _ _ hjlen] at hval
      exact ⟨j, by omega, hval⟩
  have hiff : ∀ k, k < N → ((renewalGenerate n N u).getD k 0 = 1 ↔
      ∃ j, j < k ∧ (renewalCumsum n N u).getD j 0 = k) := by
    intro k hk
    rw [hout k hk]
    by_cases hc : k ∈ (renewalCumsum n N u).take k
    · rw [if_pos hc]
      exact ⟨fun _ => (hmem k hk).mp hc, fun _ => rfl⟩
    · rw [if_neg hc]
      constructor
      · intro h01
        exact absurd h01 (by norm_num)
      · intro h
        exact absurd ((hmem k hk).mpr h) hc
  refine ⟨by simp [renewalGenerate], hiff, renewalGaps_getD_succ_ge n N u hu, ?_⟩
  intro hx0 k hk
  rw [hiff k hk]
  constructor
  · rintro ⟨j, hjk, hval⟩
    have hjlen : j < (renewalCumsum n N u).length := by omega
    rw [List.getD_eq_getElem _ _ hjlen] at hval
    rw [List.mem_iff_getElem]
    exact ⟨j, hjlen, hval⟩
  · intro hmemc
    rw [List.mem_iff_getElem] at hmemc
    obtain ⟨j, hjlen, hval⟩ := hmemc
    have hlow := cumsumNat_getD_lower (renewalGaps n N u)
      (fun i hi1 hi2 => renewalGaps_getD_succ_ge n N u hu i hi1
        (by rwa [renewalGaps_length n N u hN] at hi2))
      j (by rw [renewalGaps_length n N u hN]; omega)
    rw [← renewalCumsum] at hlow
    rw [← List.getD_eq_getElem _ _ hjlen] at hval
    refine ⟨j, ?_, hval⟩
    omega

/-- Witness for C1 (amended) at `n = 6`, `N = 2`, all draws 0. -/
theorem renewal_generate_windowed_arrivals_witness :
    (2 ≤ 6 ∧ 1 ≤ 2) ∧
    ((renewalGenerate 6 2 (fun _ => 0)).length = 2 ∧
     (∀ k, k < 2 →
       ((renewalGenerate 6 2 (fun _ => 0)).getD k 0 = 1 ↔
         ∃ j, j < k ∧ (renewalCumsum 6 2 (fun _ => 0)).getD j 0 = k)) ∧
     (∀ i, 1 ≤ i → i < 2 → 1 ≤ (renewalGaps 6 2 (fun _ => 0)).getD i 0) ∧
     (1 ≤ (renewalGaps 6 2 (fun _ => 0)).getD 0 0 →
       ∀ k, k < 2 →
         ((renewalGenerate 6 2 (fun _ => 0)).getD k 0 = 1 ↔
           k ∈ renewalCumsum 6 2 (fun _ => 0)))) :=
  ⟨⟨by norm_num, by norm_num⟩,
    renewal_generate_windowed_arrivals 6 2 (fun _ => 0) (by norm_num) (by norm_num)
      (fun _ => le_refl 0)⟩

section SplitHelpers

theorem sum_take_le (l : List ℕ) (j : ℕ) : (l.take j).sum ≤ l.sum := by
  conv_rhs => rw [← List.take_append_drop j l]
  rw [List.sum_append]
  omega

theorem range_split_at (n a : ℕ) (h : a ≤ n) :
    List.range n = List.range' 0 a ++ List.range' a (n - a) := by
  calc List.range n = List.range' 0 (n - a + a) := by
        rw [List.range_eq_range']
        congr 1
        omega
    _ = List.range' 0 a ++ List.range' (0 + a) (n - a) :=
        (List.range'_append_1 0 a (n - a)).symm
    _ = List.range' 0 a ++ List.range' a (n - a) := by rw [Nat.zero_add]

theorem drop_range_eq (n a : ℕ) (h : a ≤ n) :
    (List.range n).drop a = List.range' a (n - a) := by
  rw [range_split_at n a h, List.drop_left' (by simp)]

theorem take_range'_eq (a m k : ℕ) (h : k ≤ m) :
    (List.range' a m).take k = List.range' a k := by
  have hsplit : List.range' a m = List.range' a k ++ List.range' (a + k) (m - k) := by
    calc List.range' a m = List.range' a (m - k + k) := by congr 1; omega
      _ = List.range' a k ++ List.range' (a + k) (m - k) :=
          (List.range'_append_1 a k (m - k)).symm
  rw [hsplit, List.take_left' (by simp)]

theorem sum_take_succ_getD (l : List ℕ) (j : ℕ) (hj : j < l.length) :
    (l.take (j + 1)).sum = (l.take j).sum + l.getD j 0 := by
  rw [List.take_succ, List.getElem?_eq_getElem hj, List.sum_append,
    List.getD_eq_getElem _ _ hj]
  simp

end SplitHelpers

/-- C8: for every tuple of segment sizes and input length at least their sum,
`SequentialSplit.split` yields exactly `len - sum + 1` partitions, the `t`-th
partition's `j`-th segment being the consecutive index block of length
`sizes[j]` starting at `t + sum(sizes[:j])`; consecutive blocks of a partition
are adjacent and non-overlapping. -/
theorem sequential_split_partitions (sizes : List ℕ) (n : ℕ) (h : sizes.sum ≤ n) :
    (sequentialSplit sizes n).length = n - sizes.sum + 1 ∧
    ∀ t, t < n - sizes.sum + 1 → ∀ j, j < sizes.length →
      ((sequentialSplit sizes n).getD t []).getD j [] =
        List.range' (t + (sizes.take j).sum) (sizes.getD j 0) := by
  have hns : ((n : ℤ) - (sizes.sum : ℤ) + 1).toNat = n - sizes.sum + 1 := by omega
  constructor
  · simp only [sequentialSplit, List.length_map, List.length_range]
    exact hns
  · intro t ht j hj
    simp only [sequentialSplit]
    rw [getD_map_range _ _ (by omega : t < ((n : ℤ) - (sizes.sum : ℤ) + 1).toNat)]
    rw [getD_map_range _ _ hj]
    have haj : (sizes.take j).sum ≤ sizes.sum := sum_take_le sizes j
    have haj1 : (sizes.take (j + 1)).sum ≤ sizes.sum := sum_take_le sizes (j + 1)
    have hsucc : (sizes.take (j + 1)).sum = (sizes.take j).sum + sizes.getD j 0 :=
      sum_take_succ_getD sizes j hj
    rw [drop_range_eq n (t + (sizes.take j).sum) (by omega), hsucc]
    rw [show (sizes.take j).sum + sizes.getD j 0 - (sizes.take j).sum =
      sizes.getD j 0 from by omega]
    exact take_range'_eq _ _ _ (by omega)

/-- Witness for C8 with segment sizes `(2, 1)` over a 5-element input: the
split of the specification example, with `5 - 3 + 1 = 3` partitions whose
first segments start at offsets 0, 1, 2. -/
theorem sequential_split_partitions_witness :
    ([2, 1] : List ℕ).sum ≤ 5 ∧
    (sequentialSplit [2, 1] 5).length = 5 - ([2, 1] : List ℕ).sum + 1 ∧
    ((sequentialSplit [2, 1] 5).getD 1 []).getD 0 [] =
      List.range' (1 + (([2, 1] : List ℕ).take 0).sum) (([2, 1] : List ℕ).getD 0 0) := by
  have hmain := sequential_split_partitions [2, 1] 5 (by norm_num)
  exact ⟨by norm_num, hmain.1, hmain.2 1 (by norm_num) 0 (by norm_num)⟩

section CycleHelpers

theorem getD_set_self_eq {α : Type} (l : List α) (i : ℕ) (v d : α) (h : i < l.length) :
    (l.set i v).getD i d = v := by
  induction l generalizing i with
  | nil => simp at h
  | cons x xs ih =>
      cases i with
      | zero => rfl
      | succ m =>
          simp only [List.set_cons_succ, List.getD_cons_succ]
          exact ih m (by simpa using h)

theorem getD_set_ne {α : Type} (l : List α) {i j : ℕ} (hij : i ≠ j) (v d : α) :
    (l.set i v).getD j d = l.getD j d := by
  induction l generalizing i j with
  | nil => simp
  | cons x xs ih =>
      cases i with
      | zero =>
          cases j with
          | zero => exact absurd rfl hij
          | succ k => simp
      | succ m =>
          cases j with
          | zero => simp
          | succ k =>
              simp only [List.set_cons_succ, List.getD_cons_succ]
              exact ih (by omega)

theorem zipWith_add_getD (r t : List ℚ) (j : ℕ) (hr : j < r.length) (ht : j < t.length) :
    (List.zipWith (fun x y => x + y) r t).getD j 0 = r.getD j 0 + t.getD j 0 := by
  rw [List.getD_eq_getElem _ _ (by simp; omega), List.getD_eq_getElem _ _ hr,
    List.getD_eq_getElem _ _ ht, List.getElem_zipWith]

theorem sum_zipWith_add (r t : List ℚ) (h : r.length = t.length) :
    (List.zipWith (fun x y => x + y) r t).sum = r.sum + t.sum := by
  induction r generalizing t with
  | nil =>
      cases t with
      | nil => simp
      | cons y ys => simp at h
  | cons x xs ih =>
      cases t with
      | nil => simp at h
      | cons y ys =>
          simp only [List.zipWith_cons_cons, List.sum_cons]
          rw [ih ys (by simpa using h)]
          ring

theorem sum_map_range_single (g : ℕ → ℚ) (a n : ℕ)
    (hg : ∀ j, j < n → j ≠ a → g j = 0) :
    ((List.range n).map g).sum = if a < n then g a else 0 := by
  induction n with
  | zero => simp
  | succ m ih =>
      rw [List.range_succ, List.map_append, List.sum_append]
      simp only [List.map_cons, List.map_nil, List.sum_cons, List.sum_nil]
      by_cases hma : m = a
      · subst hma
        rw [ih (fun j hj hja => hg j (by omega) hja)]
        rw [if_neg (lt_irrefl m), if_pos (by omega)]
        ring
      · rw [hg m (by omega) hma, ih (fun j hj hja => hg j (by omega) hja)]
        by_cases ham : a < m
        · rw [if_pos ham, if_pos (by omega)]
          ring
        · rw [if_neg ham, if_neg (by omega)]
          ring

theorem sum_row_scaled (c : ℚ) (n i : ℕ) (k : ℤ) :
    ((List.range n).map (fun j : ℕ => c * (if (j : ℤ) = (i : ℤ) + k then 1 else 0))).sum =
      if 0 ≤ (i : ℤ) + k ∧ (i : ℤ) + k < (n : ℤ) then c else 0 := by
  by_cases hk : 0 ≤ (i : ℤ) + k ∧ (i : ℤ) + k < (n : ℤ)
  · rw [if_pos hk]
    have hg : ∀ j, j < n → j ≠ ((i : ℤ) + k).toNat →
        c * (if (j : ℤ) = (i : ℤ) + k then (1 : ℚ) else 0) = 0 := by
      intro j hj hja
      rw [if_neg (by omega), mul_zero]
    rw [sum_map_range_single _ ((i : ℤ) + k).toNat n hg]
    rw [if_pos (by omega), if_pos (by omega : ((((i : ℤ) + k).toNat : ℕ) : ℤ) = (i : ℤ) + k),
      mul_one]
  · rw [if_neg hk]
    have hg : ∀ j, j < n → j ≠ n →
        c * (if (j : ℤ) = (i : ℤ) + k then (1 : ℚ) else 0) = 0 := by
      intro j hj hjn
      rw [if_neg (by omega), mul_zero]
    rw [sum_map_range_single _ n n hg, if_neg (lt_irrefl n)]

theorem cycleBase_length (b s f : ℚ) (n : ℕ) : (cycleBase b s f n).length = n := by
  simp [cycleBase, matAdd, matScale, eyeQ]

theorem cycleP_length (b s f : ℚ) (n : ℕ) : (cycleP b s f n).length = n := by
  simp [cycleP, setCell, cycleBase_length]

theorem cycleBase_getD_row (b s f : ℚ) (n i : ℕ) (hi : i < n) :
    (cycleBase b s f n).getD i [] =
      List.zipWith (fun x y => x + y)
        (List.zipWith (fun x y => x + y)
          ((List.range n).map (fun j : ℕ => b * (if (j : ℤ) = (i : ℤ) + (-1) then 1 else 0)))
          ((List.range n).map (fun j : ℕ => s * (if (j : ℤ) = (i : ℤ) + 0 then 1 else 0))))
        ((List.range n).map (fun j : ℕ => f * (if (j : ℤ) = (i : ℤ) + 1 then 1 else 0))) := by
  have hlen : i < (cycleBase b s f n).length := by rw [cycleBase_length]; exact hi
  rw [List.getD_eq_getElem _ _ hlen]
  simp only [cycleBase, matAdd, matScale, eyeQ, List.getElem_zipWith, List.getElem_map,
    List.getElem_range]
  simp only [List.map_map, Function.comp]
  rfl

theorem cycleBase_row_length (b s f : ℚ) (n i : ℕ) (hi : i < n) :
    ((cycleBase b s f n).getD i []).length = n := by
  rw [cycleBase_getD_row b s f n i hi]
  simp

theorem cycleBase_row_sum (b s f : ℚ) (n i : ℕ) (hi : i < n) :
    ((cycleBase b s f n).getD i []).sum =
      (if 0 ≤ (i : ℤ) + (-1) ∧ (i : ℤ) + (-1) < (n : ℤ) then b else 0) +
      (if 0 ≤ (i : ℤ) + 0 ∧ (i : ℤ) + 0 < (n : ℤ) then s else 0) +
      (if 0 ≤ (i : ℤ) + 1 ∧ (i : ℤ) + 1 < (n : ℤ) then f else 0) := by
  rw [cycleBase_getD_row b s f n i hi]
  rw [sum_zipWith_add _ _ (by simp), sum_zipWith_add _ _ (by simp)]
  rw [sum_row_scaled, sum_row_scaled, sum_row_scaled]

theorem cycleBase_entry (b s f : ℚ) (n i j : ℕ) (hi : i < n) (hj : j < n) :
    matEntry (cycleBase b s f n) i j =
      b * (if (j : ℤ) = (i : ℤ) + (-1) then 1 else 0) +
      s * (if (j : ℤ) = (i : ℤ) + 0 then 1 else 0) +
      f * (if (j : ℤ) = (i : ℤ) + 1 then 1 else 0) := by
  rw [matEntry, cycleBase_getD_row b s f n i hi]
  rw [zipWith_add_getD _ _ _ (by simp; omega) (by simpa using hj),
    zipWith_add_getD _ _ _ (by simpa using hj) (by simpa using hj),
    getD_map_range _ _ hj, getD_map_range _ _ hj, getD_map_range _ _ hj]

theorem cycleBase_entry_cases (b s f : ℚ) (n i j : ℕ) (hi : i < n) (hj : j < n) :
    matEntry (cycleBase b s f n) i j =
      if (j : ℤ) = (i : ℤ) - 1 then b
      else if j = i then s
      else if (j : ℤ) = (i : ℤ) + 1 then f
      else 0 := by
  rw [cycleBase_entry b s f n i j hi hj]
  split_ifs <;> first | ring1 | (exfalso; omega)

theorem cycleP_getD_row_zero (b s f : ℚ) (n : ℕ) (hn : 2 ≤ n) :
    (cycleP b s f n).getD 0 [] = ((cycleBase b s f n).getD 0 []).set (n - 1) b := by
  rw [cycleP, setCell, setCell]
  rw [getD_set_ne _ (by omega : n - 1 ≠ 0)]
  rw [getD_set_self_eq _ _ _ _ (by rw [cycleBase_length]; omega)]

theorem cycleP_getD_row_last (b s f : ℚ) (n : ℕ) (hn : 2 ≤ n) :
    (cycleP b s f n).getD (n - 1) [] = ((cycleBase b s f n).getD (n - 1) []).set 0 f := by
  rw [cycleP, setCell, setCell]
  rw [getD_set_self_eq _ _ _ _ (by simp [cycleBase_length]; omega)]
  rw [getD_set_ne _ (by omega : 0 ≠ n - 1)]

theorem cycleP_getD_row_middle (b s f : ℚ) (n i : ℕ) (hi : i < n) (h0 : i ≠ 0)
    (h1 : i ≠ n - 1) : (cycleP b s f n).getD i [] = (cycleBase b s f n).getD i [] := by
  rw [cycleP, setCell, setCell]
  rw [getD_set_ne _ (by omega : n - 1 ≠ i), getD_set_ne _ (by omega : 0 ≠ i)]

theorem sum_set_eq (l : List ℚ) (i : ℕ) (v : ℚ) (h : i < l.length) :
    (l.set i v).sum = l.sum - l.getD i 0 + v := by
  induction l generalizing i with
  | nil => simp at h
  | cons x xs ih =>
      cases i with
      | zero =>
          simp only [List.set_cons_zero, List.sum_cons, List.getD_cons_zero]
          ring
      | succ k =>
          simp only [List.set_cons_succ, List.sum_cons, List.getD_cons_succ]
          rw [ih k (by simpa using h)]
          ring

theorem cycleP_row_sum (b s f : ℚ) (n i : ℕ) (hn : 3 ≤ n) (hi : i < n) :
    ((cycleP b s f n).getD i []).sum = b + s + f := by
  by_cases h0 : i = 0
  · subst h0
    rw [cycleP_getD_row_zero b s f n (by omega)]
    rw [sum_set_eq _ _ _ (by rw [cycleBase_row_length b s f n 0 (by omega)]; omega)]
    have hsum := cycleBase_row_sum b s f n 0 (by omega)
    rw [if_neg (by omega), if_pos (by constructor <;> omega),
      if_pos (by constructor <;> omega)] at hsum
    have hent : ((cycleBase b s f n).getD 0 []).getD (n - 1) 0 = 0 := by
      have hE := cycleBase_entry_cases b s f n 0 (n - 1) (by omega) (by omega)
      rw [matEntry] at hE
      rw [hE, if_neg (by omega), if_neg (by omega), if_neg (by omega)]
    rw [hsum, hent]
    ring
  · by_cases h1 : i = n - 1
    · subst h1
      rw [cycleP_getD_row_last b s f n (by omega)]
      rw [sum_set_eq _ _ _ (by rw [cycleBase_row_length b s f n (n - 1) (by omega)]; omega)]
      have hsum := cycleBase_row_sum b s f n (n - 1) (by omega)
      rw [if_pos (by constructor <;> omega), if_pos (by constructor <;> omega),
        if_neg (by omega)] at hsum
      have hent : ((cycleBase b s f n).getD (n - 1) []).getD 0 0 = 0 := by
        have hE := cycleBase_entry_cases b s f n (n - 1) 0 (by omega) (by omega)
        rw [matEntry] at hE
        rw [hE, if_neg (by omega), if_neg (by omega), if_neg (by omega)]
      rw [hsum, hent]
      ring
    · rw [cycleP_getD_row_middle b s f n i hi h0 h1]
      have hsum := cycleBase_row_sum b s f n i hi
      rw [if_pos (by constructor <;> omega), if_pos (by constructor <;> omega),
        if_pos (by constructor <;> omega)] at hsum
      rw [hsum]

end CycleHelpers

/-- C2 (amended): for probabilities `b`, `s`, `f` in `[0, 1]` summing to 1
within `1e-12` and every vertex count of at least 3, construction succeeds and
the transition matrix is `vertices x vertices` with `b` on the sub-diagonal,
`s` on the diagonal, `f` on the super-diagonal, top-right cell `b`, bottom-left
cell `f`, and every row sum within the `np.allclose` tolerance of 1. -/
theorem cycle_init_matrix (b s f : ℚ) (n : ℕ)
    (hb0 : 0 ≤ b) (hb1 : b ≤ 1) (hs0 : 0 ≤ s) (hs1 : s ≤ 1) (hf0 : 0 ≤ f) (hf1 : f ≤ 1)
    (htol : |b + s + f - 1| < 1 / 1000000000000) (hn : 3 ≤ n) :
    cycleInit b s f n = some (cycleP b s f n) ∧
    (cycleP b s f n).length = n ∧
    (∀ i, i < n → ((cycleP b s f n).getD i []).length = n) ∧
    (∀ i, i < n → matEntry (cycleP b s f n) i i = s) ∧
    (∀ i, i + 1 < n → matEntry (cycleP b s f n) (i + 1) i = b) ∧
    (∀ i, i + 1 < n → matEntry (cycleP b s f n) i (i + 1) = f) ∧
    matEntry (cycleP b s f n) 0 (n - 1) = b ∧
    matEntry (cycleP b s f n) (n - 1) 0 = f ∧
    (∀ i, i < n → |(rowSums (cycleP b s f n)).getD i 0 - 1| ≤ 1 / 100000000 + 1 / 100000) := by
  have hrs : ∀ i, i < n → (rowSums (cycleP b s f n)).getD i 0 = b + s + f := by
    intro i hi
    rw [rowSums, getD_map_of_lt _ _ (by rw [cycleP_length]; exact hi) _ []]
    exact cycleP_row_sum b s f n i hn hi
  have hclose : ∀ i, i < n →
      |(rowSums (cycleP b s f n)).getD i 0 - 1| ≤ 1 / 100000000 + 1 / 100000 := by
    intro i hi
    rw [hrs i hi]
    refine le_trans (le_of_lt htol) (by norm_num)
  have hall : allcloseOne (rowSums (cycleP b s f n)) = true := by
    rw [allcloseOne, List.all_eq_true]
    intro x hx
    rw [List.mem_iff_getElem] at hx
    obtain ⟨i, hilen, rfl⟩ := hx
    have hiN : i < n := by
      have hL : (rowSums (cycleP b s f n)).length = n := by
        rw [rowSums]
        simp [cycleP_length]
      omega
    rw [← List.getD_eq_getElem (rowSums (cycleP b s f n)) 0 hilen]
    simpa using hclose i hiN
  refine ⟨?_, cycleP_length b s f n, ?_, ?_, ?_, ?_, ?_, ?_, hclose⟩
  · rw [cycleInit, if_pos ⟨hb0, hb1⟩, if_pos ⟨hs0, hs1⟩, if_pos ⟨hf0, hf1⟩, if_pos htol,
      if_neg (by omega : ¬(n = 0)), if_pos hall]
  · intro i hi
    by_cases h0 : i = 0
    · subst h0
      rw [cycleP_getD_row_zero b s f n (by omega), List.length_set,
        cycleBase_row_length b s f n 0 (by omega)]
    · by_cases h1 : i = n - 1
      · subst h1
        rw [cycleP_getD_row_last b s f n (by omega), List.length_set,
          cycleBase_row_length b s f n (n - 1) (by omega)]
      · rw [cycleP_getD_row_middle b s f n i hi h0 h1, cycleBase_row_length b s f n i hi]
  · intro i hi
    by_cases h0 : i = 0
    · subst h0
      rw [matEntry, cycleP_getD_row_zero b s f n (by omega),
        getD_set_ne _ (by omega : n - 1 ≠ 0)]
      have hE := cycleBase_entry_cases b s f n 0 0 (by omega) (by omega)
      rw [matEntry] at hE
      rw [hE, if_neg (by omega), if_pos rfl]
    · by_cases h1 : i = n - 1
      · subst h1
        rw [matEntry, cycleP_getD_row_last b s f n (by omega),
          getD_set_ne _ (by omega : 0 ≠ n - 1)]
        have hE := cycleBase_entry_cases b s f n (n - 1) (n - 1) (by omega) (by omega)
        rw [matEntry] at hE
        rw [hE, if_neg (by omega), if_pos rfl]
      · rw [matEntry, cycleP_getD_row_middle b s f n i hi h0 h1]
        have hE := cycleBase_entry_cases b s f n i i hi hi
        rw [matEntry] at hE
        rw [hE, if_neg (by omega), if_pos rfl]
  · intro i hi1
    by_cases h1 : i + 1 = n - 1
    · rw [matEntry, h1, cycleP_getD_row_last b s f n (by omega),
        getD_set_ne _ (by omega : 0 ≠ i)]
      have hE := cycleBase_entry_cases b s f n (n - 1) i (by omega) (by omega)
      rw [matEntry] at hE
      rw [hE, if_pos (by omega : (i : ℤ) = ((n - 1 : ℕ) : ℤ) - 1)]
    · rw [matEntry, cycleP_getD_row_middle b s f n (i + 1) (by omega) (by omega) h1]
      have hE := cycleBase_entry_cases b s f n (i + 1) i (by omega) (by omega)
      rw [matEntry] at hE
      rw [hE, if_pos (by omega : (i : ℤ) = ((i + 1 : ℕ) : ℤ) - 1)]
  · intro i hi1
    by_cases h0 : i = 0
    · subst h0
      rw [matEntry, cycleP_getD_row_zero b s f n (by omega),
        getD_set_ne _ (by omega : n - 1 ≠ 0 + 1)]
      have hE := cycleBase_entry_cases b s f n 0 (0 + 1) (by omega) (by omega)
      rw [matEntry] at hE
      rw [hE, if_neg (by omega), if_neg (by omega),
        if_pos (by omega : ((0 + 1 : ℕ) : ℤ) = ((0 : ℕ) : ℤ) + 1)]
    · rw [matEntry, cycleP_getD_row_middle b s f n i (by omega) h0 (by omega)]
      have hE := cycleBase_entry_cases b s f n i (i + 1) (by omega) (by omega)
      rw [matEntry] at hE
      rw [hE, if_neg (by omega), if_neg (by omega),
        if_pos (by omega : ((i + 1 : ℕ) : ℤ) = (i : ℤ) + 1)]
  · rw [matEntry, cycleP_getD_row_zero b s f n (by omega),
      getD_set_self_eq _ _ _ _ (by rw [cycleBase_row_length b s f n 0 (by omega)]; omega)]
  · rw [matEntry, cycleP_getD_row_last b s f n (by omega),
      getD_set_self_eq _ _ _ _ (by rw [cycleBase_row_length b s f n (n - 1) (by omega)]; omega)]

/-- Witness for C2 (amended) at `b = s = f = 1/3`, 3 vertices. -/
theorem cycle_init_matrix_witness :
    cycleInit (1/3) (1/3) (1/3) 3 = some (cycleP (1/3) (1/3) (1/3) 3) ∧
    (cycleP (1/3) (1/3) (1/3) 3).length = 3 ∧
    matEntry (cycleP (1/3) (1/3) (1/3) 3) 0 (3 - 1) = 1/3 := by
  have h := cycle_init_matrix (1/3) (1/3) (1/3) 3 (by norm_num) (by norm_num) (by norm_num)
    (by norm_num) (by norm_num) (by norm_num) (by norm_num) (by norm_num)
  exact ⟨h.1, h.2.1, h.2.2.2.2.2.2.1⟩

section SynthHelpers

theorem pdShift_getD (xs : List ℚ) (k : ℤ) {i : ℕ} (hi : i < xs.length) :
    (pdShift xs k).getD i none =
      if 0 ≤ (i : ℤ) - k ∧ (i : ℤ) - k < (xs.length : ℤ) then
        some (xs.getD ((i : ℤ) - k).toNat 0)
      else none := by
  rw [pdShift]
  exact getD_map_range _ _ hi

theorem pdShift_isSome (xs : List ℚ) (k : ℤ) {i : ℕ} (hi : i < xs.length) :
    ((pdShift xs k).getD i none).isSome =
      decide (0 ≤ (i : ℤ) - k ∧ (i : ℤ) - k < (xs.length : ℤ)) := by
  rw [pdShift_getD xs k hi]
  by_cases hc : 0 ≤ (i : ℤ) - k ∧ (i : ℤ) - k < (xs.length : ℤ)
  · rw [if_pos hc, Option.isSome_some]
    exact (decide_eq_true hc).symm
  · rw [if_neg hc, Option.isSome_none]
    exact (decide_eq_false hc).symm

theorem lag_block_all (xs : List ℚ) (lags : ℕ) {i : ℕ} (hi : i < xs.length) :
    ((List.range lags).map
      (fun j : ℕ => (pdShift xs ((j : ℤ) + 1)).getD i none)).all Option.isSome =
      decide (lags ≤ i) := by
  apply Bool.coe_iff_coe.mp
  rw [List.all_eq_true]
  simp only [List.mem_map, List.mem_range, decide_eq_true_eq]
  constructor
  · intro h
    by_cases h0 : lags = 0
    · omega
    · have hmem : ∃ j, j < lags ∧
          (pdShift xs ((j : ℤ) + 1)).getD i none =
            (pdShift xs (((lags - 1 : ℕ) : ℤ) + 1)).getD i none :=
        ⟨lags - 1, by omega, rfl⟩
      have := h _ ⟨lags - 1, by omega, rfl⟩
      rw [pdShift_isSome xs _ hi] at this
      rw [decide_eq_true_eq] at this
      omega
  · intro hle x hx
    obtain ⟨j, hj, rfl⟩ := hx
    rw [pdShift_isSome xs _ hi, decide_eq_true_eq]
    constructor
    · omega
    · omega

theorem row_all_isSome (xs : List ℚ) (lags : ℕ) {i : ℕ} (hi : i < xs.length) :
    (some (xs.getD i 0) ::
      ((List.range lags).map (fun j : ℕ => (pdShift xs ((j : ℤ) + 1)).getD i none) ++
        [(pdShift xs (-1)).getD i none])).all Option.isSome =
      decide (lags ≤ i ∧ i < xs.length - 1) := by
  rw [List.all_cons, List.all_append, lag_block_all xs lags hi]
  have htgt : [(pdShift xs (-1)).getD i none].all Option.isSome =
      decide (i < xs.length - 1) := by
    rw [List.all_cons, List.all_nil, pdShift_isSome xs (-1) hi, Bool.and_true]
    rw [decide_eq_decide]
    omega
  rw [htgt]
  simp only [Option.isSome_some, Bool.true_and]
  rw [← Bool.decide_and]

theorem filter_range_decide (M a b : ℕ) :
    (List.range M).filter (fun i => decide (a ≤ i ∧ i < b)) =
      List.range' a (min b M - a) := by
  induction M with
  | zero => simp
  | succ m ih =>
      rw [List.range_succ, List.filter_append, ih]
      by_cases hm : a ≤ m ∧ m < b
      · have hone : List.filter (fun i => decide (a ≤ i ∧ i < b)) [m] = [m] := by
          simp [List.filter, hm]
        rw [hone]
        have h2 : min b (m + 1) - a = (min b m - a) + 1 := by omega
        rw [h2, List.range'_concat]
        have h3 : a + 1 * (min b m - a) = m := by omega
        rw [h3]
      · have hzero : List.filter (fun i => decide (a ≤ i ∧ i < b)) [m] = [] := by
          simp [List.filter, hm]
        rw [hzero, List.append_nil]
        have h2 : min b m - a = min b (m + 1) - a := by omega
        rw [h2]

theorem dropna_tableOf (xs : List ℚ) (N lags : ℕ) (hlen : xs.length = N + lags + 1) :
    dropna (tableOf xs lags) =
      (List.range N).map (fun t : ℕ =>
        some (xs.getD (lags + t) 0) ::
          ((List.range lags).map (fun j : ℕ => some (xs.getD (lags + t - (j + 1)) 0)) ++
            [some (xs.getD (lags + t + 1) 0)])) := by
  rw [dropna, tableOf, List.filter_map]
  rw [List.filter_congr (p := (fun r : List (Option ℚ) => r.all Option.isSome) ∘ _)
    (q := fun i : ℕ => decide (lags ≤ i ∧ i < xs.length - 1)) ?hq]
  case hq =>
    intro i hmem
    rw [List.mem_range] at hmem
    exact row_all_isSome xs lags hmem
  rw [filter_range_decide xs.length lags (xs.length - 1)]
  rw [show min (xs.length - 1) xs.length - lags = N from by omega]
  rw [List.range'_eq_map_range, List.map_map]
  apply List.map_congr_left
  intro t ht
  rw [List.mem_range] at ht
  rw [Function.comp_apply]
  have hvlt : lags + t < xs.length := by omega
  have hmap : (List.range lags).map
      (fun j : ℕ => (pdShift xs ((j : ℤ) + 1)).getD (lags + t) none) =
      (List.range lags).map (fun j : ℕ => some (xs.getD (lags + t - (j + 1)) 0)) := by
    apply List.map_congr_left
    intro j hj
    rw [List.mem_range] at hj
    rw [pdShift_getD xs _ hvlt]
    rw [if_pos (by constructor <;> omega)]
    have htn : (((lags + t : ℕ) : ℤ) - ((j : ℤ) + 1)).toNat = lags + t - (j + 1) := by omega
    rw [htn]
  have htgt : (pdShift xs (-1)).getD (lags + t) none =
      some (xs.getD (lags + t + 1) 0) := by
    rw [pdShift_getD xs (-1) hvlt]
    rw [if_pos (by constructor <;> omega)]
    have htn : (((lags + t : ℕ) : ℤ) - (-1)).toNat = lags + t + 1 := by omega
    rw [htn]
  rw [hmap, htgt]

theorem cumsumInt_length (l : List ℤ) : (cumsumInt l).length = l.length := by
  induction l with
  | nil => rfl
  | cons x xs ih => simp [cumsumInt, ih]

theorem generateQ_length (sp : SP) (N : ℕ) (u : ℕ → ℚ) (hN : 1 ≤ N) :
    (SP.generateQ sp N u).length = N := by
  cases sp with
  | two_state_markov_chain p q =>
      simp only [SP.generateQ, Markov.generate, List.length_map, List.length_range]
  | ar1 phi =>
      simp only [SP.generateQ, AR1generate, List.length_map, List.length_range]
  | cycle_random_walk b s f v =>
      simp only [SP.generateQ, cycleGenerate, List.length_map, cumsumInt_length,
        List.length_cons, List.length_range]
      omega
  | renewal n =>
      simp only [SP.generateQ, renewalGenerate, List.length_map, List.length_range]

theorem synthSeq_length (sp : SP) (N lags : ℕ) (u noise : ℕ → ℚ) :
    (synthSeq sp N lags u noise).length = N + lags + 1 := by
  by_cases h : SP.isDiscrete sp
  · simp [synthSeq, h, generateQ_length sp (N + lags + 1) u (by omega)]
  · simp [synthSeq, h, generateQ_length sp (N + lags + 1) u (by omega)]

end SynthHelpers

/-- C4: for every recognized process with parameters accepted at
construction, every `N`, `lags` and streams, `get_synthetic` generates a raw
sequence of length `N + lags + 1` and (the length assertion passing) returns a
table of exactly `N` rows indexed contiguously from 0, each row being
`value, value_lag_1 .. value_lag_lags, target` with `value_lag_j` the value
column shifted by `j`, `target` the value column shifted by `-1`, and no
undefined entries, the rows with undefined entries having been dropped. -/
theorem get_synthetic_table (sp : SP) (N lags : ℕ) (u noise : ℕ → ℚ)
    (hv : SP.valid sp = true) :
    (SP.generateQ sp (N + lags + 1) u).length = N + lags + 1 ∧
    ∃ df, get_synthetic sp N lags u noise = some df ∧
      df.length = N ∧
      (∀ t, t < N → df.getD t [] =
        some ((synthSeq sp N lags u noise).getD (lags + t) 0) ::
          ((List.range lags).map (fun j : ℕ =>
            some ((synthSeq sp N lags u noise).getD (lags + t - (j + 1)) 0)) ++
            [some ((synthSeq sp N lags u noise).getD (lags + t + 1) 0)])) ∧
      (∀ t, t < N → (df.getD t []).length = lags + 2) ∧
      (∀ t, t < N → ∀ z ∈ df.getD t [], z.isSome = true) := by
  have hgen := generateQ_length sp (N + lags + 1) u (by omega)
  have hseq := synthSeq_length sp N lags u noise
  have hdrop := dropna_tableOf (synthSeq sp N lags u noise) N lags hseq
  refine ⟨hgen, (List.range N).map (fun t : ℕ =>
      some ((synthSeq sp N lags u noise).getD (lags + t) 0) ::
        ((List.range lags).map (fun j : ℕ =>
          some ((synthSeq sp N lags u noise).getD (lags + t - (j + 1)) 0)) ++
          [some ((synthSeq sp N lags u noise).getD (lags + t + 1) 0)])), ?_, ?_, ?_, ?_, ?_⟩
  · rw [get_synthetic, if_pos hv, hdrop]
    rw [if_pos (by simp)]
  · simp
  · intro t ht
    exact getD_map_range _ _ ht
  · intro t ht
    rw [getD_map_range _ _ ht]
    simp
  · intro t ht z hz
    rw [getD_map_range _ _ ht] at hz
    simp only [List.mem_cons, List.mem_append, List.mem_map, List.mem_range,
      List.mem_singleton] at hz
    rcases hz with rfl | ⟨⟨j, _, rfl⟩ | (rfl | hz0)⟩
    · rfl
    · rfl
    · rfl
    · simp at hz0

/-- Witness for C4 with the AR(1) process at `phi = 1/2`, `N = 1`,
`lags = 1`. -/
theorem get_synthetic_table_witness :
    SP.valid (SP.ar1 (1/2)) = true ∧
    (SP.generateQ (SP.ar1 (1/2)) (1 + 1 + 1) (fun _ => 1)).length = 1 + 1 + 1 ∧
    ∃ df, get_synthetic (SP.ar1 (1/2)) 1 1 (fun _ => 1) (fun _ => 0) = some df ∧
      df.length = 1 := by
  have h := get_synthetic_table (SP.ar1 (1/2)) 1 1 (fun _ => 1) (fun _ => 0) rfl
  obtain ⟨h1, df, h2, h3, _⟩ := h
  exact ⟨rfl, h1, df, h2, h3⟩
